import Mathlib

/-!
Verification development for the TokenDiscoveryFuzzer repository.

Byte sequences are modelled as `List Nat` (each element an octet value), a
corpus as `List (List Nat)`.  Rust `f64` threshold and success-rate values are
modelled exactly as rationals (`ℚ`); Rust `HashSet` values are modelled as
duplicate-free lists whose membership is the set's membership.
-/

/-- Insert an element into a list modelling a `HashSet`: a no-op when the
element is already present (set semantics). -/
def insertNew {α : Type} [DecidableEq α] (a : α) (l : List α) : List α :=
  if a ∈ l then l else a :: l

/-- Whether `tok` occurs as a contiguous substring of `e`. -/
def occursIn (tok e : List Nat) : Bool :=
  (List.range (e.length + 1)).any (fun i => (e.drop i).take tok.length = tok)

/-- Number of corpus entries that contain `tok` as a contiguous substring. -/
def countContaining (corpus : List (List Nat)) (tok : List Nat) : Nat :=
  (corpus.filter (fun e => occursIn tok e)).length

/-! ## Token dictionary (`src/smart_token_mutations.rs`, `SmartTokens`) -/

/-- Rust `TokenStat { uses: u64, successes: u64 }`. -/
structure TokenStat where
  uses : Nat
  successes : Nat
deriving DecidableEq, Repr

/-- Rust `TokenStat::default()`: stats start at `(1, 1)`. -/
def TokenStat.default : TokenStat := ⟨1, 1⟩

/-- The success rate `successes as f64 / uses as f64`, modelled exactly in ℚ. -/
def TokenStat.rate (s : TokenStat) : ℚ := (s.successes : ℚ) / (s.uses : ℚ)

/-- Rust `SmartTokens`: token list, membership set, per-token stats, capacity
and the optional protected index. -/
structure SmartTokens where
  tokens_vec : List (List Nat)
  tokens_set : List (List Nat)
  stats : List TokenStat
  max_tokens : Nat
  protected_idx : Option Nat
deriving DecidableEq, Repr

/-- Rust `SmartTokens::with_capacity`. -/
def SmartTokens.with_capacity (max_tokens : Nat) : SmartTokens :=
  ⟨[], [], [], max_tokens, none⟩

/-- Rust `SmartTokens::protect_index`. -/
def SmartTokens.protect_index (st : SmartTokens) (idx : Nat) : SmartTokens :=
  { st with protected_idx := some idx }

/-- Rust `SmartTokens::unprotect`. -/
def SmartTokens.unprotect (st : SmartTokens) : SmartTokens :=
  { st with protected_idx := none }

/-- The accumulating loop of `SmartTokens::find_eviction_index`: walk the
stats with index `i`, skipping the protected index, tracking the worst
(lowest) success rate seen so far.  `none` for the worst rate models the
initial `f64::MAX` sentinel (no entry with `uses > 0` seen yet). -/
def evictLoop (prot : Option Nat) :
    List TokenStat → Nat → Nat × Option ℚ → Nat × Option ℚ
  | [], _, acc => acc
  | s :: rest, i, (wi, wr) =>
    if some i = prot then evictLoop prot rest (i + 1) (wi, wr)
    else if 0 < s.uses then
      match wr with
      | none => evictLoop prot rest (i + 1) (i, some s.rate)
      | some r =>
        if s.rate < r then evictLoop prot rest (i + 1) (i, some s.rate)
        else evictLoop prot rest (i + 1) (wi, wr)
    else evictLoop prot rest (i + 1) (wi, wr)

/-- Rust `SmartTokens::find_eviction_index`.  After the loop, reject if the
chosen index is protected, or if the worst rate is still above `1.0` (the
`f64::MAX` sentinel, i.e. no entry with `uses > 0` was seen, or a rate
greater than one). -/
def SmartTokens.find_eviction_index (st : SmartTokens) : Option Nat :=
  match evictLoop st.protected_idx st.stats 0 (0, none) with
  | (wi, wr) =>
    if some wi = st.protected_idx then none
    else
      match wr with
      | none => none
      | some r => if 1 < r then none else some wi

/-- Rust `SmartTokens::add_token`: reject duplicates; append while under
capacity; otherwise evict the index found by `find_eviction_index`,
overwriting the slot in place and resetting its stats to `(1, 1)`. -/
def SmartTokens.add_token (st : SmartTokens) (token : List Nat) :
    SmartTokens × Option Nat :=
  if token ∈ st.tokens_set then (st, none)
  else if st.tokens_vec.length < st.max_tokens then
    ({ st with
        tokens_vec := st.tokens_vec ++ [token]
        tokens_set := insertNew token st.tokens_set
        stats := st.stats ++ [TokenStat.default] },
      some st.tokens_vec.length)
  else
    match st.find_eviction_index with
    | some idx =>
      ({ st with
          tokens_set := insertNew token (st.tokens_set.erase (st.tokens_vec.getD idx []))
          tokens_vec := st.tokens_vec.set idx token
          stats := st.stats.set idx TokenStat.default },
        some idx)
    | none => (st, none)

/-- Rust `SmartTokens::update_stats`: `stats.get_mut(idx)` is a no-op for an
out-of-range index; otherwise increment `uses` and, on success, `successes`. -/
def SmartTokens.update_stats (st : SmartTokens) (idx : Nat) (success : Bool) :
    SmartTokens :=
  match st.stats.get? idx with
  | none => st
  | some s =>
    { st with
        stats := st.stats.set idx
          ⟨s.uses + 1, if success then s.successes + 1 else s.successes⟩ }

/-- Modelled from the spec: `add_all(tokens)` ("idempotent bulk add", §4.5) is
called from the discovery stage but its body is not among the sources;
modelled as folding `add_token` over the list. -/
def SmartTokens.add_all (st : SmartTokens) (tokens : List (List Nat)) : SmartTokens :=
  tokens.foldl (fun s t => (s.add_token t).1) st

/-- One dictionary operation, for quantifying over operation sequences. -/
inductive DictOp where
  | add (t : List Nat)
  | addAll (ts : List (List Nat))
  | update (idx : Nat) (success : Bool)
  | protect (idx : Nat)
  | unprotect
deriving Repr

/-- Apply one dictionary operation. -/
def DictOp.apply (st : SmartTokens) : DictOp → SmartTokens
  | .add t => (st.add_token t).1
  | .addAll ts => st.add_all ts
  | .update idx success => st.update_stats idx success
  | .protect idx => st.protect_index idx
  | .unprotect => st.unprotect

/-- Run a sequence of dictionary operations from a starting state. -/
def runOps (st : SmartTokens) (ops : List DictOp) : SmartTokens :=
  ops.foldl DictOp.apply st

/-! ## Suffix-array common-substring scan (`src/processors/sais.rs`, `Sais::process`) -/

/-- Strict lexicographic order on byte sequences (a proper prefix is smaller),
the order in which a suffix array lists the suffixes of a text. -/
def lexLt : List Nat → List Nat → Bool
  | _, [] => false
  | [], _ :: _ => true
  | a :: as, b :: bs => if a < b then true else if b < a then false else lexLt as bs

/-- Insert into a sorted list: place `x` before the first element `y` such
that `le x y` holds. -/
def insertBy {α : Type} (le : α → α → Bool) (x : α) : List α → List α
  | [] => [x]
  | y :: ys => if le x y then x :: y :: ys else y :: insertBy le x ys

/-- Stable insertion sort with respect to `le`. -/
def sortBy {α : Type} (le : α → α → Bool) (l : List α) : List α :=
  l.foldr (insertBy le) []

/-- The suffix array of `c`: all suffix start positions, ordered by the
lexicographic order of the corresponding suffixes.  This models the contract
of the external `libsais` construction used by the source. -/
def buildSA (c : List Nat) : List Nat :=
  sortBy (fun i j => !lexLt (c.drop j) (c.drop i)) (List.range c.length)

/-- Length of the longest common prefix of two byte sequences. -/
def lcpLen : List Nat → List Nat → Nat
  | a :: as, b :: bs => if a = b then lcpLen as bs + 1 else 0
  | _, _ => 0

/-- The LCP array for suffix array `sa` of text `c`:
`lcp[i] = LCP(c[sa[i-1]..], c[sa[i]..])` and `lcp[0] = 0`. -/
def buildLCP (c sa : List Nat) : List Nat :=
  (List.range sa.length).map (fun i =>
    if i = 0 then 0
    else lcpLen (c.drop (sa.getD (i - 1) 0)) (c.drop (sa.getD i 0)))

/-- Concatenation of all corpus entries (`concat` in the source). -/
def corpusConcat (corpus : List (List Nat)) : List Nat :=
  corpus.flatten

/-- The `input_id` array: the owning input index of each byte of the
concatenation. -/
def corpusOrigin (corpus : List (List Nat)) : List Nat :=
  (corpus.enum.map (fun p => List.replicate p.2.length p.1)).flatten

/-- An open group on the scan stack: `(lcp_level, start_pos_in_sa, input_ids)`.
The `HashSet<usize>` of input ids is modelled as a duplicate-free list. -/
abbrev SaisGroup := Nat × Nat × List Nat

/-- Emitting a popped group (`Sais::process`, the body of the pop loop and of
the final flush): a candidate `(pos, len, support)` is recorded when the
group saw at least two distinct inputs and the slice fits in the text. -/
def saisEmit (concatLen : Nat) (sa : List Nat) (max_len : Nat)
    (g : SaisGroup) (out : List (Nat × Nat × Nat)) : List (Nat × Nat × Nat) :=
  let pos := sa.getD g.2.1 0
  let len := min g.1 max_len
  if 2 ≤ g.2.2.length ∧ pos + len ≤ concatLen then
    out ++ [(pos, len, g.2.2.length)]
  else out

/-- The pop loop of `Sais::process`: pop and emit every group whose level is
above the current LCP value. -/
def saisPop (concatLen : Nat) (sa : List Nat) (max_len lcpv : Nat) :
    List SaisGroup → List (Nat × Nat × Nat) →
    List SaisGroup × List (Nat × Nat × Nat)
  | [], out => ([], out)
  | g :: rest, out =>
    if lcpv < g.1 then saisPop concatLen sa max_len lcpv rest (saisEmit concatLen sa max_len g out)
    else (g :: rest, out)

/-- One iteration `i` of the scan loop of `Sais::process`. -/
def saisStep (concatLen : Nat) (sa lcp input_id : List Nat) (min_len max_len : Nat)
    (i : Nat) (acc : List SaisGroup × List (Nat × Nat × Nat)) :
    List SaisGroup × List (Nat × Nat × Nat) :=
  let lcpv := lcp.getD i 0
  let current_input := input_id.getD (sa.getD i 0) 0
  let prev_input := input_id.getD (sa.getD (i - 1) 0) 0
  let popped := saisPop concatLen sa max_len lcpv acc.1 acc.2
  if lcpv < min_len then popped
  else
    match popped.1 with
    | (level, start, inputs) :: rest =>
      if lcpv = level then ((level, start, insertNew current_input inputs) :: rest, popped.2)
      else ((lcpv, i - 1, insertNew current_input (insertNew prev_input [])) ::
              (level, start, inputs) :: rest, popped.2)
    | [] => ([(lcpv, i - 1, insertNew current_input (insertNew prev_input []))], popped.2)

/-- The final flush of `Sais::process`: pop and emit every remaining group. -/
def saisFlush (concatLen : Nat) (sa : List Nat) (max_len : Nat) :
    List SaisGroup → List (Nat × Nat × Nat) → List (Nat × Nat × Nat)
  | [], out => out
  | g :: rest, out => saisFlush concatLen sa max_len rest (saisEmit concatLen sa max_len g out)

/-- The stack-based LCP grouping scan of `Sais::process`, returning the raw
emitted candidates as `(pos, len, support)` triples in emission order. -/
def saisScanRaw (corpus : List (List Nat)) (min_len max_len : Nat) :
    List (Nat × Nat × Nat) :=
  let concat := corpusConcat corpus
  let input_id := corpusOrigin corpus
  let sa := buildSA concat
  let lcp := buildLCP concat sa
  let n := sa.length
  let acc := (List.range n).drop 1 |>.foldl
    (fun acc i => saisStep concat.length sa lcp input_id min_len max_len i acc)
    ([], [])
  saisFlush concat.length sa max_len acc.1 acc.2

/-- The candidate list of `Sais::process`: each raw `(pos, len, support)`
yields the byte slice `concat[pos..pos+len]` with its support count. -/
def saisCandidates (corpus : List (List Nat)) (min_len max_len : Nat) :
    List (List Nat × Nat) :=
  let concat := corpusConcat corpus
  (saisScanRaw corpus min_len max_len).map
    (fun t => (((concat.drop t.1).take t.2.1), t.2.2))

/-! ## Token selection (`Sais::process` step 4).
The `ThresholdFn` variant (floating-point `powf` interpolation) is outside the
claims and is not modelled; the `Threshold` and `MinTokenCount` variants are
modelled with the `f64` threshold as an exact rational. -/

/-- Rust `((corpus_size as f64) * t).ceil() as usize` with `t` exact. -/
def thresholdMinInputs (t : ℚ) (corpus_size : Nat) : Nat :=
  (⌈(corpus_size : ℚ) * t⌉).toNat

/-- `SelectionMode::Threshold`: keep the candidates whose support reaches the
ceiling, collected into a `HashSet` (modelled as a duplicate-free list). -/
def selectThreshold (t : ℚ) (corpus_size : Nat) (cands : List (List Nat × Nat)) :
    List (List Nat) :=
  ((cands.filter (fun c => thresholdMinInputs t corpus_size ≤ c.2)).map Prod.fst).dedup

/-- Rust `candidates.sort_by(|a, b| b.1.cmp(&a.1))`: stable sort by strictly
descending support. -/
def sortCandidates (cands : List (List Nat × Nat)) : List (List Nat × Nat) :=
  sortBy (fun a b => b.2 ≤ a.2) cands

/-- One run of `dedup_by`: `x` is the element currently kept; a following
element with the same bytes is dropped, a differing one starts a new run. -/
def dedupAdjacentRun (x : List Nat × Nat) :
    List (List Nat × Nat) → List (List Nat × Nat)
  | [] => [x]
  | y :: rest => if x.1 = y.1 then dedupAdjacentRun x rest else x :: dedupAdjacentRun y rest

/-- Rust `candidates.dedup_by(|a, b| a.0 == b.0)`: remove all but the first of
each run of consecutive candidates with equal bytes. -/
def dedupAdjacentByBytes : List (List Nat × Nat) → List (List Nat × Nat)
  | [] => []
  | x :: rest => dedupAdjacentRun x rest

/-- `SelectionMode::MinTokenCount(target)`: stable-sort by descending support,
remove consecutive duplicates by bytes, and keep everything whose support
reaches the support of candidate `target-1` (keep all when at most `target`
candidates remain). -/
def selectMinTokenCount (target : Nat) (cands : List (List Nat × Nat)) :
    List (List Nat) :=
  let c := dedupAdjacentByBytes (sortCandidates cands)
  if c.isEmpty then []
  else if c.length ≤ target then (c.map Prod.fst).dedup
  else
    let cutoff := (c.getD (target - 1) ([], 0)).2
    ((c.filter (fun p => cutoff ≤ p.2)).map Prod.fst).dedup

/-- Selection modes of `Sais` covered by the claims. -/
inductive SaisSelectionMode where
  | threshold (t : ℚ)
  | minTokenCount (target : Nat)

/-- Apply the selection mode to the candidate list. -/
def applySelection (mode : SaisSelectionMode) (corpus_size : Nat)
    (cands : List (List Nat × Nat)) : List (List Nat) :=
  match mode with
  | .threshold t => selectThreshold t corpus_size cands
  | .minTokenCount target => selectMinTokenCount target cands

/-- Rust `Sais::process`: `None` on an empty input list or empty concatenation,
otherwise scan, select, and return `None` when the selection is empty. -/
def Sais.process (min_len max_len : Nat) (mode : SaisSelectionMode)
    (inputs : List (List Nat)) : Option (List (List Nat)) :=
  if inputs.isEmpty then none
  else if (corpusConcat inputs).isEmpty then none
  else
    let result := applySelection mode inputs.length (saisCandidates inputs min_len max_len)
    if result.isEmpty then none else some result

/-- Written to the spec's words for comparison with `selectMinTokenCount`
(claim C3): global deduplication by bytes, keeping the first (highest-support)
occurrence of every byte sequence. -/
def dedupGlobalByBytes (l : List (List Nat × Nat)) : List (List Nat × Nat) :=
  l.foldl (fun acc y => if y.1 ∈ acc.map Prod.fst then acc else acc ++ [y]) []

/-- Written to the spec's words for comparison with `selectMinTokenCount`
(claim C3): sort by descending support, deduplicate by bytes (globally), then
keep all with support at least that of candidate `target-1`. -/
def selectMinTokenCountSpecc (target : Nat) (cands : List (List Nat × Nat)) :
    List (List Nat) :=
  let c := dedupGlobalByBytes (sortCandidates cands)
  if c.isEmpty then []
  else if c.length ≤ target then (c.map Prod.fst).dedup
  else
    let cutoff := (c.getD (target - 1) ([], 0)).2
    ((c.filter (fun p => cutoff ≤ p.2)).map Prod.fst).dedup

/-! ## Claims C1 and C2: boundary safety and soundness of the scan -/

/-- The corpus `["ab", "cq", "abcz"]`. -/
def corpusCross : List (List Nat) := [[97, 98], [99, 113], [97, 98, 99, 122]]

/-- The corpus `["foo", "bar", "foobar"]` of spec scenario B. -/
def corpusFooBar : List (List Nat) :=
  [[102, 111, 111], [98, 97, 114], [102, 111, 111, 98, 97, 114]]

/-- Claim C1 (code_bug evidence): on the corpus `["ab", "cq", "abcz"]` with
`min_len = 3`, the scan emits exactly one candidate, the slice
`concat[0..3] = "abc"`, whose first byte belongs to input 0 and whose last
byte belongs to input 1 — the emitted slice spans an input boundary, and no
shortening or discarding takes place (the largest prefix inside input 0 has
length 2 < min_len). -/
theorem sais_scan_crosses_boundary :
    saisScanRaw corpusCross 3 16 = [(0, 3, 2)] ∧
    saisCandidates corpusCross 3 16 = [([97, 98, 99], 2)] ∧
    (corpusOrigin corpusCross).getD 0 0 = 0 ∧
    (corpusOrigin corpusCross).getD 2 0 = 1 := by
  refine ⟨by decide, by decide, by decide, by decide⟩

/-- Claim C2 (code_bug evidence): on spec scenario B (`["foo","bar","foobar"]`,
`min_len = 6`, `Threshold(0.5)`) the scan emits the candidate
`("foobar", 2)` and `Sais::process` outputs the token `"foobar"`, yet
`"foobar"` occurs as a contiguous substring of only one corpus entry —
the emitted support count 2 exceeds the number of entries containing the
bytes, and the spec's expected result for this scenario is no token. -/
theorem sais_scan_unsound_support :
    saisCandidates corpusFooBar 6 16 = [([102, 111, 111, 98, 97, 114], 2)] ∧
    countContaining corpusFooBar [102, 111, 111, 98, 97, 114] = 1 ∧
    Sais.process 6 16 (.threshold (1/2)) corpusFooBar =
      some [[102, 111, 111, 98, 97, 114]] := by
  have hc : saisCandidates corpusFooBar 6 16 = [([102, 111, 111, 98, 97, 114], 2)] := by
    decide
  have ht : thresholdMinInputs (1/2) 3 = 2 := by
    unfold thresholdMinInputs
    rw [show ((3 : Nat) : ℚ) * (1/2) = 3/2 by norm_num]
    rw [show ⌈(3 : ℚ)/2⌉ = 2 by rw [Int.ceil_eq_iff]; norm_num]
    rfl
  refine ⟨hc, by decide, ?_⟩
  unfold Sais.process
  rw [if_neg (by decide), if_neg (by decide)]
  rw [show corpusFooBar.length = 3 by decide]
  unfold applySelection
  rw [hc]
  simp only [selectThreshold, ht]
  decide

/-! ## Claim C3: selection correctness -/

theorem mem_insertBy {α : Type} (le : α → α → Bool) (a x : α) :
    ∀ l, (x ∈ insertBy le a l ↔ x = a ∨ x ∈ l)
  | [] => by simp [insertBy]
  | y :: ys => by
    by_cases h : le a y
    · simp [insertBy, h]
    · simp only [insertBy, h, Bool.false_eq_true, if_false, List.mem_cons,
        mem_insertBy le a x ys]
      tauto

theorem mem_sortBy {α : Type} (le : α → α → Bool) (x : α) :
    ∀ l, (x ∈ sortBy le l ↔ x ∈ l)
  | [] => Iff.rfl
  | y :: ys => by
    show x ∈ insertBy le y (sortBy le ys) ↔ _
    rw [mem_insertBy, mem_sortBy le x ys]
    simp

theorem length_insertBy {α : Type} (le : α → α → Bool) (a : α) :
    ∀ l, (insertBy le a l).length = l.length + 1
  | [] => rfl
  | y :: ys => by
    by_cases h : le a y
    · simp [insertBy, h]
    · simp [insertBy, h, length_insertBy le a ys]

theorem length_sortBy {α : Type} (le : α → α → Bool) :
    ∀ l : List α, (sortBy le l).length = l.length
  | [] => rfl
  | y :: ys => by
    show (insertBy le y (sortBy le ys)).length = _
    rw [length_insertBy, length_sortBy le ys]
    rfl

theorem mem_dedupAdjacentRun :
    ∀ (l : List (List Nat × Nat)) (x z : List Nat × Nat),
      z ∈ dedupAdjacentRun x l → z = x ∨ z ∈ l
  | [], x, z, h => by simp [dedupAdjacentRun] at h; exact Or.inl h
  | y :: rest, x, z, h => by
    by_cases hxy : x.1 = y.1
    · simp only [dedupAdjacentRun, if_pos hxy] at h
      rcases mem_dedupAdjacentRun rest x z h with h1 | h1
      · exact Or.inl h1
      · exact Or.inr (List.mem_cons_of_mem _ h1)
    · simp only [dedupAdjacentRun, if_neg hxy, List.mem_cons] at h
      rcases h with h1 | h1
      · exact Or.inl h1
      · rcases mem_dedupAdjacentRun rest y z h1 with h2 | h2
        · exact Or.inr (h2 ▸ List.mem_cons_self _ _)
        · exact Or.inr (List.mem_cons_of_mem _ h2)

theorem mem_dedupAdjacentByBytes (l : List (List Nat × Nat))
    (x : List Nat × Nat) (h : x ∈ dedupAdjacentByBytes l) : x ∈ l := by
  cases l with
  | nil => simp [dedupAdjacentByBytes] at h
  | cons y rest =>
    rcases mem_dedupAdjacentRun rest y x h with h1 | h1
    · exact h1 ▸ List.mem_cons_self _ _
    · exact List.mem_cons_of_mem _ h1

theorem length_dedupAdjacentRun :
    ∀ (l : List (List Nat × Nat)) (x : List Nat × Nat),
      (dedupAdjacentRun x l).length ≤ l.length + 1
  | [], _ => Nat.le_refl _
  | y :: rest, x => by
    by_cases hxy : x.1 = y.1
    · simp only [dedupAdjacentRun, if_pos hxy]
      exact Nat.le_succ_of_le (length_dedupAdjacentRun rest x)
    · simp only [dedupAdjacentRun, if_neg hxy, List.length_cons]
      exact Nat.succ_le_succ (length_dedupAdjacentRun rest y)

theorem length_dedupAdjacentByBytes (l : List (List Nat × Nat)) :
    (dedupAdjacentByBytes l).length ≤ l.length := by
  cases l with
  | nil => exact Nat.le_refl _
  | cons y rest => exact length_dedupAdjacentRun rest y

/-- The candidate list `[(A,5), (B,4), (A,4), (C,3), (D,2)]` on which the code
and the claim's selection procedure disagree. -/
def candsTie : List (List Nat × Nat) :=
  [([0], 5), ([1], 4), ([0], 4), ([2], 3), ([3], 2)]

/-- Claim C3 counterexample: with `MinTokenCount(3)` on `candsTie`, the source
(which removes only consecutive duplicates after the stable descending sort,
so the second `(A,4)` entry survives and occupies the cutoff slot) returns the
token set `{A, B}`, while the claim's procedure (full deduplication by bytes)
returns `{A, B, C}`: token `C = [2]` distinguishes them. -/
theorem minTokenCount_dedup_counterexample :
    selectMinTokenCount 3 candsTie = [[1], [0]] ∧
    selectMinTokenCountSpecc 3 candsTie = [[0], [1], [2]] ∧
    [2] ∉ selectMinTokenCount 3 candsTie ∧
    [2] ∈ selectMinTokenCountSpecc 3 candsTie := by
  refine ⟨by decide, by decide, by decide, by decide⟩

theorem mem_map_fst_dedup (l : List (List Nat × Nat)) (b : List Nat) :
    b ∈ (l.map Prod.fst).dedup ↔ ∃ s, (b, s) ∈ l := by
  rw [List.mem_dedup, List.mem_map]
  constructor
  · rintro ⟨⟨b1, s⟩, hin, rfl⟩
    exact ⟨s, hin⟩
  · rintro ⟨s, hin⟩
    exact ⟨(b, s), hin, rfl⟩

/-- Claim C3 as amended: `Threshold(t)` keeps exactly the candidates with
support at least `⌈t·N⌉`; `MinTokenCount(k)` stable-sorts by descending
support, removes consecutive duplicate byte sequences, and keeps exactly the
candidates whose support reaches the support of the `k`-th remaining
candidate (everything when at most `k` remain), so its output never exceeds
the candidate count. -/
theorem sais_selection_correct (cands : List (List Nat × Nat)) (t : ℚ) (N k : Nat) :
    (∀ b, b ∈ selectThreshold t N cands ↔
        ∃ s, (b, s) ∈ cands ∧ thresholdMinInputs t N ≤ s) ∧
    (∀ b, b ∈ selectMinTokenCount k cands → ∃ s, (b, s) ∈ cands) ∧
    ((dedupAdjacentByBytes (sortCandidates cands)).length ≤ k →
      ∀ b, (b ∈ selectMinTokenCount k cands ↔
        ∃ s, (b, s) ∈ dedupAdjacentByBytes (sortCandidates cands))) ∧
    (k < (dedupAdjacentByBytes (sortCandidates cands)).length →
      ∀ b, (b ∈ selectMinTokenCount k cands ↔
        ∃ s, (b, s) ∈ dedupAdjacentByBytes (sortCandidates cands) ∧
          ((dedupAdjacentByBytes (sortCandidates cands)).getD (k - 1) ([], 0)).2 ≤ s)) ∧
    (selectMinTokenCount k cands).length ≤ cands.length := by
  have hmemc : ∀ p : List Nat × Nat,
      p ∈ dedupAdjacentByBytes (sortCandidates cands) → p ∈ cands := by
    intro p hp
    have := mem_dedupAdjacentByBytes _ _ hp
    exact (mem_sortBy _ _ _).1 this
  have hlenc : (dedupAdjacentByBytes (sortCandidates cands)).length ≤ cands.length := by
    have h1 := length_dedupAdjacentByBytes (sortCandidates cands)
    have h2 : (sortCandidates cands).length = cands.length := length_sortBy _ cands
    omega
  refine ⟨?_, ?_, ?_, ?_, ?_⟩
  · intro b
    unfold selectThreshold
    rw [mem_map_fst_dedup]
    constructor
    · rintro ⟨s, hin⟩
      rw [List.mem_filter] at hin
      exact ⟨s, hin.1, by simpa using hin.2⟩
    · rintro ⟨s, hin, hth⟩
      exact ⟨s, List.mem_filter.2 ⟨hin, by simpa using hth⟩⟩
  · intro b hb
    unfold selectMinTokenCount at hb
    by_cases h0 : (dedupAdjacentByBytes (sortCandidates cands)).isEmpty
    · simp only [h0, if_true] at hb
      exact absurd hb (List.not_mem_nil b)
    · simp only [h0, Bool.false_eq_true, if_false] at hb
      by_cases h1 : (dedupAdjacentByBytes (sortCandidates cands)).length ≤ k
      · rw [if_pos h1, mem_map_fst_dedup] at hb
        obtain ⟨s, hs⟩ := hb
        exact ⟨s, hmemc _ hs⟩
      · rw [if_neg h1, mem_map_fst_dedup] at hb
        obtain ⟨s, hs⟩ := hb
        rw [List.mem_filter] at hs
        exact ⟨s, hmemc _ hs.1⟩
  · intro hk b
    unfold selectMinTokenCount
    by_cases h0 : (dedupAdjacentByBytes (sortCandidates cands)).isEmpty
    · rw [List.isEmpty_iff] at h0
      simp [h0]
    · simp only [h0, Bool.false_eq_true, if_false, if_pos hk]
      exact mem_map_fst_dedup _ b
  · intro hk b
    unfold selectMinTokenCount
    have h0 : ¬ (dedupAdjacentByBytes (sortCandidates cands)).isEmpty := by
      rw [List.isEmpty_iff]
      intro h
      rw [h] at hk
      exact absurd hk (by simp)
    simp only [h0, Bool.false_eq_true, if_false, if_neg (Nat.not_le_of_lt hk)]
    rw [mem_map_fst_dedup]
    constructor
    · rintro ⟨s, hs⟩
      rw [List.mem_filter] at hs
      exact ⟨s, hs.1, by simpa using hs.2⟩
    · rintro ⟨s, hin, hcut⟩
      exact ⟨s, List.mem_filter.2 ⟨hin, by simpa using hcut⟩⟩
  · unfold selectMinTokenCount
    by_cases h0 : (dedupAdjacentByBytes (sortCandidates cands)).isEmpty
    · simp [h0]
    · simp only [h0, Bool.false_eq_true, if_false]
      by_cases h1 : (dedupAdjacentByBytes (sortCandidates cands)).length ≤ k
      · rw [if_pos h1]
        calc ((dedupAdjacentByBytes (sortCandidates cands)).map Prod.fst).dedup.length
            ≤ ((dedupAdjacentByBytes (sortCandidates cands)).map Prod.fst).length :=
              (List.dedup_sublist _).length_le
          _ = (dedupAdjacentByBytes (sortCandidates cands)).length := List.length_map _ _
          _ ≤ cands.length := hlenc
      · rw [if_neg h1]
        calc (((dedupAdjacentByBytes (sortCandidates cands)).filter _).map Prod.fst).dedup.length
            ≤ (((dedupAdjacentByBytes (sortCandidates cands)).filter _).map Prod.fst).length :=
              (List.dedup_sublist _).length_le
          _ = ((dedupAdjacentByBytes (sortCandidates cands)).filter _).length :=
              List.length_map _ _
          _ ≤ (dedupAdjacentByBytes (sortCandidates cands)).length :=
              List.length_filter_le _ _
          _ ≤ cands.length := hlenc

/-- Witness for `sais_selection_correct` at the concrete list `candsTie`,
`k = 3`: the kept token `[0]` comes from a remaining candidate at or above
the cutoff support. -/
theorem sais_selection_correct_witness :
    (3 < (dedupAdjacentByBytes (sortCandidates candsTie)).length) ∧
    (∃ s, (([0] : List Nat), s) ∈ dedupAdjacentByBytes (sortCandidates candsTie) ∧
      ((dedupAdjacentByBytes (sortCandidates candsTie)).getD 2 ([], 0)).2 ≤ s) :=
  ⟨by decide,
    ((sais_selection_correct candsTie (1/2) 5 3).2.2.2.1 (by decide) [0]).1 (by decide)⟩

/-! ## Claim C10: frame effect of `update_stats` -/

/-- Claim C10: `update_stats` with an index at or beyond the number of stored
tokens leaves the dictionary unchanged; a valid index increments exactly that
entry's `uses`, increments its `successes` iff `success`, and leaves every
other entry and every other field unchanged.  The hypothesis `hlen` is the
dictionary's stats/tokens alignment invariant (established by
`dict_ops_preserve_invariants`). -/
theorem update_stats_frame (st : SmartTokens) (idx : Nat) (success : Bool)
    (hlen : st.stats.length = st.tokens_vec.length) :
    (st.tokens_vec.length ≤ idx → st.update_stats idx success = st) ∧
    (idx < st.tokens_vec.length →
      (st.update_stats idx success).stats.get? idx =
        some ⟨(st.stats.getD idx TokenStat.default).uses + 1,
          if success then (st.stats.getD idx TokenStat.default).successes + 1
          else (st.stats.getD idx TokenStat.default).successes⟩ ∧
      (∀ j, j ≠ idx →
        (st.update_stats idx success).stats.get? j = st.stats.get? j) ∧
      (st.update_stats idx success).tokens_vec = st.tokens_vec ∧
      (st.update_stats idx success).tokens_set = st.tokens_set ∧
      (st.update_stats idx success).max_tokens = st.max_tokens ∧
      (st.update_stats idx success).protected_idx = st.protected_idx) := by
  constructor
  · intro hge
    unfold SmartTokens.update_stats
    have : st.stats.get? idx = none := by
      rw [List.get?_eq_none]
      omega
    rw [this]
  · intro hlt
    have hlt2 : idx < st.stats.length := by omega
    have hget : st.stats.get? idx = some (st.stats.getD idx TokenStat.default) := by
      rw [List.getD_eq_getElem?_getD, List.get?_eq_getElem?]
      rcases List.getElem?_eq_getElem hlt2 with h
      rw [h]
      rfl
    unfold SmartTokens.update_stats
    rw [hget]
    refine ⟨?_, ?_, rfl, rfl, rfl, rfl⟩
    · simp only [List.get?_eq_getElem?]
      rw [List.getElem?_set_self (by simpa using hlt2)]
    · intro j hj
      simp only [List.get?_eq_getElem?]
      rw [List.getElem?_set_ne (by omega)]

/-- Witness for `update_stats_frame`: on a concrete two-entry dictionary, an
out-of-range index is a no-op. -/
theorem update_stats_frame_witness :
    ((⟨[[1], [2]], [[1], [2]], [⟨1, 1⟩, ⟨3, 2⟩], 5, none⟩ : SmartTokens).stats.length =
      (⟨[[1], [2]], [[1], [2]], [⟨1, 1⟩, ⟨3, 2⟩], 5, none⟩ : SmartTokens).tokens_vec.length) ∧
    ((⟨[[1], [2]], [[1], [2]], [⟨1, 1⟩, ⟨3, 2⟩], 5, none⟩ : SmartTokens).tokens_vec.length ≤ 7 →
      (⟨[[1], [2]], [[1], [2]], [⟨1, 1⟩, ⟨3, 2⟩], 5, none⟩ : SmartTokens).update_stats 7 true =
        ⟨[[1], [2]], [[1], [2]], [⟨1, 1⟩, ⟨3, 2⟩], 5, none⟩) :=
  ⟨by decide, (update_stats_frame _ 7 true (by decide)).1⟩

/-! ## Claims C4 and C5: eviction policy and dictionary invariants -/

/-- An index eligible for eviction: in range, not protected, and its entry has
been used at least once. -/
def EvictCandidate (st : SmartTokens) (j : Nat) : Prop :=
  j < st.stats.length ∧ st.protected_idx ≠ some j ∧
    0 < (st.stats.getD j ⟨0, 0⟩).uses

/-- Meaning of the `(worst_idx, worst_rate)` accumulator of `evictLoop` after
the first `i` stats entries have been visited. -/
def EvictAcc (st : SmartTokens) (i : Nat) : Nat × Option ℚ → Prop
  | (_, none) => ∀ j, j < i → ¬ EvictCandidate st j
  | (wi, some r) =>
    EvictCandidate st wi ∧ wi < i ∧ (st.stats.getD wi ⟨0, 0⟩).rate = r ∧
    (∀ j, j < i → EvictCandidate st j → r ≤ (st.stats.getD j ⟨0, 0⟩).rate) ∧
    (∀ j, j < i → EvictCandidate st j →
      (st.stats.getD j ⟨0, 0⟩).rate = r → wi ≤ j)

theorem evictLoop_spec (st : SmartTokens) :
    ∀ (rest : List TokenStat) (i : Nat) (acc : Nat × Option ℚ),
      rest = st.stats.drop i → EvictAcc st i acc →
      EvictAcc st st.stats.length (evictLoop st.protected_idx rest i acc)
  | [], i, acc, hrest, hacc => by
    have hlen : st.stats.length ≤ i := by
      have := congrArg List.length hrest
      simp only [List.length_nil, List.length_drop] at this
      omega
    show EvictAcc st st.stats.length acc
    rcases acc with ⟨wi, wr⟩
    cases wr with
    | none =>
      intro j hj
      exact hacc j (by omega)
    | some r =>
      obtain ⟨h1, h2, h3, h4, h5⟩ := hacc
      exact ⟨h1, h1.1, h3,
        fun j hj hc => h4 j (by omega) hc,
        fun j hj hc he => h5 j (by omega) hc he⟩
  | s :: rest2, i, (wi, wr), hrest, hacc => by
    have hi : i < st.stats.length := by
      by_contra hge
      rw [List.drop_eq_nil_of_le (by omega)] at hrest
      exact List.cons_ne_nil s rest2 hrest
    have hdrop := List.drop_eq_getElem_cons hi
    rw [hdrop] at hrest
    have hs : s = st.stats.getD i ⟨0, 0⟩ := by
      rw [List.getD_eq_getElem _ _ hi]
      exact (List.cons.injEq _ _ _ _ ▸ hrest).1
    have hrest2 : rest2 = st.stats.drop (i + 1) :=
      (List.cons.injEq _ _ _ _ ▸ hrest).2
    unfold evictLoop
    by_cases hprot : some i = st.protected_idx
    · rw [if_pos hprot]
      refine evictLoop_spec st rest2 (i + 1) (wi, wr) hrest2 ?_
      have hnc : ¬ EvictCandidate st i := fun hc => hc.2.1 hprot.symm
      cases wr with
      | none =>
        intro j hj
        rcases Nat.lt_succ_iff_lt_or_eq.1 hj with h | h
        · exact hacc j h
        · exact h ▸ hnc
      | some r =>
        obtain ⟨h1, h2, h3, h4, h5⟩ := hacc
        refine ⟨h1, by omega, h3, ?_, ?_⟩
        · intro j hj hc
          rcases Nat.lt_succ_iff_lt_or_eq.1 hj with h | h
          · exact h4 j h hc
          · exact absurd (h ▸ hc) hnc
        · intro j hj hc he
          rcases Nat.lt_succ_iff_lt_or_eq.1 hj with h | h
          · exact h5 j h hc he
          · exact absurd (h ▸ hc) hnc
    · rw [if_neg hprot]
      have hrate : (st.stats.getD i ⟨0, 0⟩).rate = s.rate := by rw [hs]
      by_cases huse : 0 < s.uses
      · have hcand : EvictCandidate st i :=
          ⟨hi, fun h => hprot h.symm, by rw [hs] at huse; exact huse⟩
        rw [if_pos huse]
        cases wr with
        | none =>
          refine evictLoop_spec st rest2 (i + 1) (i, some s.rate) hrest2 ?_
          refine ⟨hcand, by omega, hrate, ?_, ?_⟩
          · intro j hj hc
            rcases Nat.lt_succ_iff_lt_or_eq.1 hj with h | h
            · exact absurd hc (hacc j h)
            · rw [h, hrate]
          · intro j hj hc _
            rcases Nat.lt_succ_iff_lt_or_eq.1 hj with h | h
            · exact absurd hc (hacc j h)
            · omega
        | some r =>
          obtain ⟨h1, h2, h3, h4, h5⟩ := hacc
          by_cases hlt : s.rate < r
          · simp only [if_pos hlt]
            refine evictLoop_spec st rest2 (i + 1) (i, some s.rate) hrest2 ?_
            refine ⟨hcand, by omega, hrate, ?_, ?_⟩
            · intro j hj hc
              rcases Nat.lt_succ_iff_lt_or_eq.1 hj with h | h
              · exact le_trans (le_of_lt hlt) (h4 j h hc)
              · rw [h, hrate]
            · intro j hj hc he
              rcases Nat.lt_succ_iff_lt_or_eq.1 hj with h | h
              · exact absurd (lt_of_le_of_lt (he ▸ h4 j h hc) hlt) (lt_irrefl _)
              · omega
          · simp only [if_neg hlt]
            refine evictLoop_spec st rest2 (i + 1) (wi, some r) hrest2 ?_
            refine ⟨h1, by omega, h3, ?_, ?_⟩
            · intro j hj hc
              rcases Nat.lt_succ_iff_lt_or_eq.1 hj with h | h
              · exact h4 j h hc
              · rw [h, hrate]; exact le_of_not_lt hlt
            · intro j hj hc he
              rcases Nat.lt_succ_iff_lt_or_eq.1 hj with h | h
              · exact h5 j h hc he
              · omega
      · rw [if_neg huse]
        refine evictLoop_spec st rest2 (i + 1) (wi, wr) hrest2 ?_
        have hnc : ¬ EvictCandidate st i := by
          intro hc
          have h0 := hc.2.2
          rw [← hs] at h0
          exact huse h0
        cases wr with
        | none =>
          intro j hj
          rcases Nat.lt_succ_iff_lt_or_eq.1 hj with h | h
          · exact hacc j h
          · exact h ▸ hnc
        | some r =>
          obtain ⟨h1, h2, h3, h4, h5⟩ := hacc
          refine ⟨h1, by omega, h3, ?_, ?_⟩
          · intro j hj hc
            rcases Nat.lt_succ_iff_lt_or_eq.1 hj with h | h
            · exact h4 j h hc
            · exact absurd (h ▸ hc) hnc
          · intro j hj hc he
            rcases Nat.lt_succ_iff_lt_or_eq.1 hj with h | h
            · exact h5 j h hc he
            · exact absurd (h ▸ hc) hnc

theorem find_eviction_acc (st : SmartTokens) :
    EvictAcc st st.stats.length (evictLoop st.protected_idx st.stats 0 (0, none)) :=
  evictLoop_spec st st.stats 0 (0, none) rfl (fun j hj => absurd hj (Nat.not_lt_zero j))

theorem rate_le_one (s : TokenStat) (h : s.successes ≤ s.uses) (hu : 0 < s.uses) :
    s.rate ≤ 1 := by
  unfold TokenStat.rate
  rw [div_le_one (by exact_mod_cast hu)]
  exact_mod_cast h

theorem find_eviction_index_some_spec (st : SmartTokens) (e : Nat)
    (hfind : st.find_eviction_index = some e) :
    EvictCandidate st e ∧
    (∀ j, EvictCandidate st j →
      (st.stats.getD e ⟨0, 0⟩).rate ≤ (st.stats.getD j ⟨0, 0⟩).rate) ∧
    (∀ j, EvictCandidate st j →
      (st.stats.getD j ⟨0, 0⟩).rate = (st.stats.getD e ⟨0, 0⟩).rate → e ≤ j) := by
  unfold SmartTokens.find_eviction_index at hfind
  have hacc := find_eviction_acc st
  rcases hres : evictLoop st.protected_idx st.stats 0 (0, none) with ⟨wi, wr⟩
  rw [hres] at hacc
  cases wr with
  | none =>
    simp only [hres] at hfind
    by_cases hp : some wi = st.protected_idx
    · rw [if_pos hp] at hfind
      exact absurd hfind (by simp)
    · rw [if_neg hp] at hfind
      exact absurd hfind (by simp)
  | some r =>
    simp only [hres] at hfind
    obtain ⟨h1, _, h3, h4, h5⟩ := hacc
    by_cases hp : some wi = st.protected_idx
    · rw [if_pos hp] at hfind
      exact absurd hfind (by simp)
    · rw [if_neg hp] at hfind
      by_cases hr : 1 < r
      · rw [if_pos hr] at hfind
        exact absurd hfind (by simp)
      · rw [if_neg hr] at hfind
        have he : wi = e := by simpa using hfind
        subst he
        refine ⟨h1, ?_, ?_⟩
        · intro j hc
          rw [h3]
          exact h4 j hc.1 hc
        · intro j hc hj
          exact h5 j hc.1 hc (h3 ▸ hj)

theorem find_eviction_index_none_iff (st : SmartTokens)
    (hs : ∀ s ∈ st.stats, s.successes ≤ s.uses) :
    st.find_eviction_index = none ↔ ∀ j, ¬ EvictCandidate st j := by
  constructor
  · intro hfind
    unfold SmartTokens.find_eviction_index at hfind
    have hacc := find_eviction_acc st
    rcases hres : evictLoop st.protected_idx st.stats 0 (0, none) with ⟨wi, wr⟩
    rw [hres] at hacc
    cases wr with
    | none =>
      intro j hc
      exact hacc j hc.1 hc
    | some r =>
      simp only [hres] at hfind
      obtain ⟨h1, _, h3, _, _⟩ := hacc
      by_cases hp : some wi = st.protected_idx
      · exact absurd hp.symm h1.2.1
      · rw [if_neg hp] at hfind
        by_cases hr : 1 < r
        · have hmem : st.stats.getD wi ⟨0, 0⟩ ∈ st.stats := by
            rw [List.getD_eq_getElem _ _ h1.1]
            exact List.getElem_mem _
          have := rate_le_one _ (hs _ hmem) h1.2.2
          rw [h3] at this
          exact absurd hr (not_lt_of_le this)
        · rw [if_neg hr] at hfind
          exact absurd hfind (by simp)
  · intro h
    unfold SmartTokens.find_eviction_index
    have hacc := find_eviction_acc st
    rcases hres : evictLoop st.protected_idx st.stats 0 (0, none) with ⟨wi, wr⟩
    rw [hres] at hacc
    cases wr with
    | none =>
      simp only [hres]
      by_cases hp : some wi = st.protected_idx
      · rw [if_pos hp]
      · rw [if_neg hp]
    | some r =>
      exact absurd hacc.1 (h wi)

/-- Claim C4: for a dictionary at capacity and a token not already present,
`add_token` evicts exactly the non-protected entry with `uses > 0` and the
lowest `successes/uses` ratio (ties broken by lowest index); the protected
index is never the evicted slot; if no non-protected entry has `uses > 0`
the insertion is rejected with `none`; the evicted slot is overwritten in
place with its stats reset to `(1, 1)`. -/
theorem add_token_eviction_policy (st : SmartTokens) (token : List Nat)
    (hcap : st.max_tokens ≤ st.tokens_vec.length)
    (hmem : token ∉ st.tokens_set)
    (hs : ∀ s ∈ st.stats, s.successes ≤ s.uses) :
    ((∀ j, ¬ EvictCandidate st j) → st.add_token token = (st, none)) ∧
    ((∃ j, EvictCandidate st j) → ∃ e, st.find_eviction_index = some e) ∧
    (∀ e, st.find_eviction_index = some e →
      EvictCandidate st e ∧
      st.protected_idx ≠ some e ∧
      (∀ j, EvictCandidate st j →
        (st.stats.getD e ⟨0, 0⟩).rate ≤ (st.stats.getD j ⟨0, 0⟩).rate) ∧
      (∀ j, EvictCandidate st j →
        (st.stats.getD j ⟨0, 0⟩).rate = (st.stats.getD e ⟨0, 0⟩).rate → e ≤ j) ∧
      st.add_token token =
        ({ st with
            tokens_set := insertNew token (st.tokens_set.erase (st.tokens_vec.getD e []))
            tokens_vec := st.tokens_vec.set e token
            stats := st.stats.set e TokenStat.default }, some e)) := by
  refine ⟨?_, ?_, ?_⟩
  · intro h
    unfold SmartTokens.add_token
    rw [if_neg hmem, if_neg (by omega), (find_eviction_index_none_iff st hs).2 h]
  · intro ⟨j, hj⟩
    rcases hfe : st.find_eviction_index with _ | e
    · exact absurd hj ((find_eviction_index_none_iff st hs).1 hfe j)
    · exact ⟨e, rfl⟩
  · intro e hfind
    obtain ⟨h1, h2, h3⟩ := find_eviction_index_some_spec st e hfind
    refine ⟨h1, h1.2.1, h2, h3, ?_⟩
    unfold SmartTokens.add_token
    rw [if_neg hmem, if_neg (by omega), hfind]

/-- Dictionary used as the concrete witness instance: at capacity 3 with
entry 0 protected and success rates `1/2`, `1/4`, `1/1`. -/
def stW : SmartTokens :=
  ⟨[[0], [1], [2]], [[0], [1], [2]], [⟨2, 1⟩, ⟨4, 1⟩, ⟨1, 1⟩], 3, some 0⟩

/-- Witness for `add_token_eviction_policy`: on `stW`, index 1 (rate `1/4`,
the lowest among non-protected used entries) is evicted. -/
theorem add_token_eviction_policy_witness :
    stW.find_eviction_index = some 1 ∧
    (EvictCandidate stW 1 ∧
     stW.protected_idx ≠ some 1 ∧
     (∀ j, EvictCandidate stW j →
       (stW.stats.getD 1 ⟨0, 0⟩).rate ≤ (stW.stats.getD j ⟨0, 0⟩).rate) ∧
     (∀ j, EvictCandidate stW j →
       (stW.stats.getD j ⟨0, 0⟩).rate = (stW.stats.getD 1 ⟨0, 0⟩).rate → 1 ≤ j) ∧
     stW.add_token [9] =
       ({ stW with
           tokens_set := insertNew [9] (stW.tokens_set.erase (stW.tokens_vec.getD 1 []))
           tokens_vec := stW.tokens_vec.set 1 [9]
           stats := stW.stats.set 1 TokenStat.default }, some 1)) := by
  have hfind : stW.find_eviction_index = some 1 := by
    norm_num [stW, SmartTokens.find_eviction_index, evictLoop, TokenStat.rate]
  exact ⟨hfind,
    (add_token_eviction_policy stW [9] (by decide) (by decide) (by decide)).2.2 1 hfind⟩

theorem mem_insertNew {α : Type} [DecidableEq α] (a b : α) (l : List α) :
    b ∈ insertNew a l ↔ b = a ∨ b ∈ l := by
  unfold insertNew
  by_cases h : a ∈ l
  · rw [if_pos h]
    constructor
    · exact Or.inr
    · rintro (rfl | hb)
      · exact h
      · exact hb
  · rw [if_neg h]
    exact List.mem_cons

theorem nodup_insertNew {α : Type} [DecidableEq α] (a : α) (l : List α)
    (h : l.Nodup) : (insertNew a l).Nodup := by
  unfold insertNew
  by_cases hm : a ∈ l
  · rw [if_pos hm]
    exact h
  · rw [if_neg hm]
    exact List.nodup_cons.2 ⟨hm, h⟩

theorem mem_set_iff_of_nodup {α : Type} :
    ∀ (l : List α) (i : Nat) (a d b : α), i < l.length → l.Nodup →
      (b ∈ l.set i a ↔ b = a ∨ (b ∈ l ∧ b ≠ l.getD i d))
  | [], i, a, d, b, h, _ => absurd h (by simp)
  | x :: xs, 0, a, d, b, _, hnd => by
    have hx : x ∉ xs := (List.nodup_cons.1 hnd).1
    have hset0 : (x :: xs).set 0 a = a :: xs := rfl
    have hgd : (x :: xs).getD 0 d = x := rfl
    rw [hset0, hgd, List.mem_cons, List.mem_cons]
    constructor
    · rintro (rfl | hb)
      · exact Or.inl rfl
      · exact Or.inr ⟨Or.inr hb, fun hbx => hx (hbx ▸ hb)⟩
    · rintro (rfl | ⟨hb | hb, hne⟩)
      · exact Or.inl rfl
      · exact absurd hb hne
      · exact Or.inr hb
  | x :: xs, i + 1, a, d, b, h, hnd => by
    have hx : x ∉ xs := (List.nodup_cons.1 hnd).1
    have hi : i < xs.length := by simpa using h
    have hg : xs.getD i d ∈ xs := by
      rw [List.getD_eq_getElem _ _ hi]
      exact List.getElem_mem _
    have hxg : x ≠ xs.getD i d := fun hc => hx (hc ▸ hg)
    have ih := mem_set_iff_of_nodup xs i a d b hi (List.nodup_cons.1 hnd).2
    show b ∈ x :: xs.set i a ↔ b = a ∨ (b ∈ x :: xs ∧ b ≠ (x :: xs).getD (i + 1) d)
    rw [List.mem_cons, ih]
    have hgd : (x :: xs).getD (i + 1) d = xs.getD i d := rfl
    rw [hgd, List.mem_cons]
    constructor
    · rintro (rfl | rfl | ⟨hb, hne⟩)
      · exact Or.inr ⟨Or.inl rfl, hxg⟩
      · exact Or.inl rfl
      · exact Or.inr ⟨Or.inr hb, hne⟩
    · rintro (rfl | ⟨rfl | hb, hne⟩)
      · exact Or.inr (Or.inl rfl)
      · exact Or.inl rfl
      · exact Or.inr (Or.inr ⟨hb, hne⟩)

theorem nodup_set {α : Type} :
    ∀ (l : List α) (i : Nat) (a : α), l.Nodup → a ∉ l → (l.set i a).Nodup
  | [], _, _, _, _ => List.nodup_nil
  | x :: xs, 0, a, hnd, ha => by
    simp only [List.set]
    exact List.nodup_cons.2
      ⟨fun hc => ha (List.mem_cons_of_mem _ hc), (List.nodup_cons.1 hnd).2⟩
  | x :: xs, i + 1, a, hnd, ha => by
    simp only [List.set]
    refine List.nodup_cons.2 ⟨?_, nodup_set xs i a (List.nodup_cons.1 hnd).2
      (fun hc => ha (List.mem_cons_of_mem _ hc))⟩
    intro hc
    rcases List.mem_or_eq_of_mem_set hc with hin | rfl
    · exact (List.nodup_cons.1 hnd).1 hin
    · exact ha (List.mem_cons_self _ _)

/-- The mutual-consistency invariant of the token dictionary: the stored list
fits the capacity, the stats are index-aligned with the tokens, and the
membership set agrees with the list (both duplicate-free). -/
def DictInv (st : SmartTokens) : Prop :=
  st.tokens_vec.length ≤ st.max_tokens ∧
  st.stats.length = st.tokens_vec.length ∧
  (∀ t, t ∈ st.tokens_set ↔ t ∈ st.tokens_vec) ∧
  st.tokens_vec.Nodup ∧ st.tokens_set.Nodup

theorem add_token_preserves_inv (st : SmartTokens) (token : List Nat)
    (h : DictInv st) : DictInv (st.add_token token).1 := by
  obtain ⟨hcap, hlen, hset, hndv, hnds⟩ := h
  unfold SmartTokens.add_token
  by_cases hm : token ∈ st.tokens_set
  · rw [if_pos hm]
    exact ⟨hcap, hlen, hset, hndv, hnds⟩
  · rw [if_neg hm]
    have htoknv : token ∉ st.tokens_vec := fun hc => hm ((hset token).2 hc)
    by_cases hlt : st.tokens_vec.length < st.max_tokens
    · rw [if_pos hlt]
      refine ⟨?_, ?_, ?_, ?_, ?_⟩
      · simpa using hlt
      · simp [hlen]
      · intro t
        rw [mem_insertNew, hset t, List.mem_append]
        simp only [List.mem_singleton]
        tauto
      · rw [List.nodup_append]
        exact ⟨hndv, List.nodup_singleton token,
          fun a ha hb => htoknv (List.mem_singleton.1 hb ▸ ha)⟩
      · exact nodup_insertNew _ _ hnds
    · rw [if_neg hlt]
      rcases hfe : st.find_eviction_index with _ | e
      · exact ⟨hcap, hlen, hset, hndv, hnds⟩
      · have he : e < st.tokens_vec.length := by
          have := (find_eviction_index_some_spec st e hfe).1.1
          omega
        refine ⟨?_, ?_, ?_, ?_, ?_⟩
        · simpa using hcap
        · simp [hlen]
        · intro t
          rw [mem_insertNew, hnds.mem_erase_iff,
            mem_set_iff_of_nodup st.tokens_vec e token [] t he hndv, hset t]
          tauto
        · exact nodup_set _ _ _ hndv htoknv
        · exact nodup_insertNew _ _ (hnds.erase _)

theorem update_stats_preserves_inv (st : SmartTokens) (idx : Nat) (b : Bool)
    (h : DictInv st) : DictInv (st.update_stats idx b) := by
  obtain ⟨hcap, hlen, hset, hndv, hnds⟩ := h
  unfold SmartTokens.update_stats
  rcases st.stats.get? idx with _ | s
  · exact ⟨hcap, hlen, hset, hndv, hnds⟩
  · exact ⟨hcap, by simp [hlen], hset, hndv, hnds⟩

theorem add_all_preserves_inv (st : SmartTokens) (tokens : List (List Nat))
    (h : DictInv st) : DictInv (st.add_all tokens) := by
  induction tokens generalizing st with
  | nil => exact h
  | cons t ts ih =>
    exact ih _ (add_token_preserves_inv st t h)

theorem apply_preserves_inv (st : SmartTokens) (op : DictOp)
    (h : DictInv st) : DictInv (DictOp.apply st op) := by
  cases op with
  | add t => exact add_token_preserves_inv st t h
  | addAll ts => exact add_all_preserves_inv st ts h
  | update idx b => exact update_stats_preserves_inv st idx b h
  | protect idx => exact h
  | unprotect => exact h

theorem add_token_max_tokens (st : SmartTokens) (token : List Nat) :
    (st.add_token token).1.max_tokens = st.max_tokens := by
  unfold SmartTokens.add_token
  by_cases hm : token ∈ st.tokens_set
  · rw [if_pos hm]
  · rw [if_neg hm]
    by_cases hlt : st.tokens_vec.length < st.max_tokens
    · rw [if_pos hlt]
    · rw [if_neg hlt]
      rcases st.find_eviction_index with _ | e
      · rfl
      · rfl

theorem add_all_max_tokens (st : SmartTokens) (tokens : List (List Nat)) :
    (st.add_all tokens).max_tokens = st.max_tokens := by
  induction tokens generalizing st with
  | nil => rfl
  | cons t ts ih =>
    rw [show st.add_all (t :: ts) = ((st.add_token t).1).add_all ts from rfl,
      ih, add_token_max_tokens]

theorem apply_max_tokens (st : SmartTokens) (op : DictOp) :
    (DictOp.apply st op).max_tokens = st.max_tokens := by
  cases op with
  | add t => exact add_token_max_tokens st t
  | addAll ts => exact add_all_max_tokens st ts
  | update idx b =>
    show (st.update_stats idx b).max_tokens = st.max_tokens
    unfold SmartTokens.update_stats
    rcases st.stats.get? idx with _ | s
    · rfl
    · rfl
  | protect idx => rfl
  | unprotect => rfl

/-- Claim C5: starting from `with_capacity cap`, after any sequence of
dictionary operations the number of stored tokens never exceeds the capacity
(`max_tokens`, which stays equal to `cap`), the stats vector stays
index-aligned with the token list, and the membership set agrees with the
list. -/
theorem dict_ops_preserve_invariants (cap : Nat) (ops : List DictOp) :
    (runOps (SmartTokens.with_capacity cap) ops).tokens_vec.length ≤
      (runOps (SmartTokens.with_capacity cap) ops).max_tokens ∧
    (runOps (SmartTokens.with_capacity cap) ops).max_tokens = cap ∧
    (runOps (SmartTokens.with_capacity cap) ops).stats.length =
      (runOps (SmartTokens.with_capacity cap) ops).tokens_vec.length ∧
    (∀ t, t ∈ (runOps (SmartTokens.with_capacity cap) ops).tokens_set ↔
      t ∈ (runOps (SmartTokens.with_capacity cap) ops).tokens_vec) := by
  have hrun : ∀ (st : SmartTokens) (ops : List DictOp), DictInv st →
      DictInv (runOps st ops) ∧ (runOps st ops).max_tokens = st.max_tokens := by
    intro st ops0 h
    induction ops0 generalizing st with
    | nil => exact ⟨h, rfl⟩
    | cons op rest ih =>
      obtain ⟨h1, h2⟩ := ih (DictOp.apply st op) (apply_preserves_inv st op h)
      exact ⟨h1, by rw [show runOps st (op :: rest) =
        runOps (DictOp.apply st op) rest from rfl, h2, apply_max_tokens]⟩
  have hinit : DictInv (SmartTokens.with_capacity cap) := by
    refine ⟨by simp [SmartTokens.with_capacity], rfl, ?_, List.nodup_nil, List.nodup_nil⟩
    intro t
    exact Iff.rfl
  obtain ⟨⟨hcap, hlen, hset, _, _⟩, hmax⟩ :=
    hrun (SmartTokens.with_capacity cap) ops hinit
  exact ⟨hcap, hmax, hlen, hset⟩

/-! ## Claim C6: token-preserving scheduled mutator (`src/token_mutator.rs`).
The random source is modelled as a stream `Nat → Nat` with a cursor;
`rand.below(n)` reads the next stream value modulo `n`.  Mutation outcomes
(`Mutated`/`Skipped`) influence only the returned `MutationResult` and the
`last_token_used` bookkeeping, never which mutations get applied, so `mutate`
is modelled as returning the ordered list of applied mutation indices. -/

/-- A stream of raw random values. -/
abbrev RandStream := Nat → Nat

/-- `rand.below(n)`: next stream value modulo `n`, advancing the cursor. -/
def randBelow (s : RandStream) (k n : Nat) : Nat × Nat := (s k % n, k + 1)

/-- `rand.below_or_zero(n)`: zero when `n = 0`, else a draw below `n`. -/
def randBelowOrZero (s : RandStream) (k n : Nat) : Nat × Nat :=
  if n = 0 then (0, k) else (s k % n, k + 1)

/-- The scheduler state: tuple length, `max_stack_pow` and the indices of the
mutations whose name contains `"Token"`. -/
structure TPSM where
  mutations_len : Nat
  max_stack_pow : Nat
  token_indices : List Nat

/-- `ScheduledMutator::iterations`: `1 << (1 + rand.below_or_zero(max_stack_pow))`. -/
def TPSM.iterations (m : TPSM) (s : RandStream) (k : Nat) : Nat × Nat :=
  match randBelowOrZero s k m.max_stack_pow with
  | (v, k1) => (2 ^ (1 + v), k1)

/-- `ScheduledMutator::schedule`: a uniform draw over the whole tuple. -/
def TPSM.schedule (m : TPSM) (s : RandStream) (k : Nat) : Nat × Nat :=
  randBelow s k m.mutations_len

/-- `TokenPreservingScheduledMutator::schedule_token`: `none` models the
panic on an empty token set. -/
def TPSM.schedule_token (m : TPSM) (s : RandStream) (k : Nat) :
    Option (Nat × Nat) :=
  if m.token_indices.isEmpty then none
  else
    match randBelow s k m.token_indices.length with
    | (v, k1) => some (m.token_indices.getD v 0, k1)

/-- The retry loop of `schedule_non_token`, with fuel standing in for the
unbounded `loop`: redraw until a non-token index comes up. -/
def scheduleNonTokenLoop (m : TPSM) (s : RandStream) :
    Nat → Nat → Option (Nat × Nat)
  | 0, _ => none
  | fuel + 1, k =>
    match randBelow s k m.mutations_len with
    | (idx, k1) =>
      if idx ∈ m.token_indices then scheduleNonTokenLoop m s fuel k1
      else some (idx, k1)

/-- `TokenPreservingScheduledMutator::schedule_non_token`: when the tuple has
no non-token mutation, fall back to `schedule_token`. -/
def TPSM.schedule_non_token (m : TPSM) (s : RandStream) (fuel k : Nat) :
    Option (Nat × Nat) :=
  if m.mutations_len - m.token_indices.length = 0 then m.schedule_token s k
  else scheduleNonTokenLoop m s fuel k

/-- The stacked-mutation loop of `mutate`: apply `n` mutations, each scheduled
by `schedule_non_token` in a token round and by `schedule` otherwise. -/
def stackLoop (m : TPSM) (s : RandStream) (ut : Bool) (fuel : Nat) :
    Nat → Nat → List Nat → Option (List Nat × Nat)
  | 0, k, acc => some (acc, k)
  | n + 1, k, acc =>
    match (if ut then m.schedule_non_token s fuel k
           else some (m.schedule s k)) with
    | none => none
    | some (idx, k1) => stackLoop m s ut fuel n k1 (acc ++ [idx])

/-- `TokenPreservingScheduledMutator::mutate`: draw the base iteration count,
decide `use_token` (30% draw, only with a nonempty token set), halve the
iterations in a token round (minimum 1), apply the stacked mutations, and in
a token round apply one final token mutation.  Returns the ordered applied
mutation indices, the `use_token` flag and the final cursor. -/
def TPSM.mutate (m : TPSM) (s : RandStream) (fuel k : Nat) :
    Option (List Nat × Bool × Nat) :=
  match m.iterations s k with
  | (base, k1) =>
    match (if m.token_indices.isEmpty then (false, k1)
           else
             match randBelow s k1 100 with
             | (v, k2) => (decide (v < 30), k2)) with
    | (ut, k2) =>
      match stackLoop m s ut fuel (if ut then max (base / 2) 1 else base) k2 [] with
      | none => none
      | some (trace0, k3) =>
        if ut then
          match m.schedule_token s k3 with
          | none => none
          | some (tk, k4) => some (trace0 ++ [tk], true, k4)
        else some (trace0, false, k3)

/-- A mutator tuple consisting solely of one token mutation. -/
def tpsmTokenOnly : TPSM := ⟨1, 7, [0]⟩

/-- Claim C6 counterexample: with a tuple containing only token mutations and
the all-zero random stream, the round is marked `use_token` and the single
stacked (non-final) mutation is index 0 — a member of the token set, because
`schedule_non_token` falls back to `schedule_token` when the havoc set is
empty.  This refutes "every stacked mutation is drawn from the non-token
(havoc) set" as stated. -/
theorem token_scheduler_stacked_counterexample :
    TPSM.mutate tpsmTokenOnly (fun _ => 0) 1 0 = some ([0, 0], true, 4) ∧
    ([0, 0] : List Nat).dropLast = [0] ∧
    0 ∈ tpsmTokenOnly.token_indices := by
  refine ⟨by decide, by decide, by decide⟩

theorem schedule_token_mem (m : TPSM) (s : RandStream) (k t k1 : Nat)
    (h : m.schedule_token s k = some (t, k1)) : t ∈ m.token_indices := by
  unfold TPSM.schedule_token at h
  by_cases hemp : m.token_indices.isEmpty
  · rw [if_pos hemp] at h
    exact absurd h (by simp)
  · rw [if_neg hemp] at h
    simp only [randBelow] at h
    have hne : m.token_indices ≠ [] := fun hc => hemp (by simp [hc])
    have hlen : 0 < m.token_indices.length := List.length_pos.2 hne
    have hv : s k % m.token_indices.length < m.token_indices.length :=
      Nat.mod_lt _ hlen
    have ht : t = m.token_indices.getD (s k % m.token_indices.length) 0 := by
      have := (Option.some.injEq _ _ ▸ h)
      exact (Prod.mk.injEq _ _ _ _ ▸ this).1.symm
    rw [ht, List.getD_eq_getElem _ _ hv]
    exact List.getElem_mem _

theorem scheduleNonTokenLoop_not_token (m : TPSM) (s : RandStream) :
    ∀ (fuel k idx k1 : Nat),
      scheduleNonTokenLoop m s fuel k = some (idx, k1) →
      idx ∉ m.token_indices
  | 0, k, idx, k1, h => absurd h (by simp [scheduleNonTokenLoop])
  | fuel + 1, k, idx, k1, h => by
    unfold scheduleNonTokenLoop at h
    simp only [randBelow] at h
    by_cases hmem : s k % m.mutations_len ∈ m.token_indices
    · rw [if_pos hmem] at h
      exact scheduleNonTokenLoop_not_token m s fuel (k + 1) idx k1 h
    · rw [if_neg hmem] at h
      have : idx = s k % m.mutations_len := by
        have := (Option.some.injEq _ _ ▸ h)
        exact (Prod.mk.injEq _ _ _ _ ▸ this).1.symm
      rw [this]
      exact hmem

theorem schedule_non_token_not_token (m : TPSM) (s : RandStream)
    (fuel k idx k1 : Nat)
    (hhavoc : m.mutations_len - m.token_indices.length ≠ 0)
    (h : m.schedule_non_token s fuel k = some (idx, k1)) :
    idx ∉ m.token_indices := by
  unfold TPSM.schedule_non_token at h
  rw [if_neg hhavoc] at h
  exact scheduleNonTokenLoop_not_token m s fuel k idx k1 h

theorem stackLoop_length (m : TPSM) (s : RandStream) (ut : Bool) (fuel : Nat) :
    ∀ (n k : Nat) (acc tr : List Nat) (kend : Nat),
      stackLoop m s ut fuel n k acc = some (tr, kend) →
      tr.length = acc.length + n
  | 0, k, acc, tr, kend, h => by
    have : acc = tr := by
      have := (Option.some.injEq _ _ ▸ h)
      exact (Prod.mk.injEq _ _ _ _ ▸ this).1
    rw [← this]
    omega
  | n + 1, k, acc, tr, kend, h => by
    unfold stackLoop at h
    rcases hsched : (if ut then m.schedule_non_token s fuel k
        else some (m.schedule s k)) with _ | ⟨idx, k1⟩
    · rw [hsched] at h
      exact absurd h (by simp)
    · rw [hsched] at h
      have := stackLoop_length m s ut fuel n k1 (acc ++ [idx]) tr kend h
      simp only [List.length_append, List.length_singleton] at this
      omega

theorem stackLoop_not_token (m : TPSM) (s : RandStream) (fuel : Nat)
    (hhavoc : m.mutations_len - m.token_indices.length ≠ 0) :
    ∀ (n k : Nat) (acc tr : List Nat) (kend : Nat),
      stackLoop m s true fuel n k acc = some (tr, kend) →
      (∀ i ∈ acc, i ∉ m.token_indices) →
      ∀ i ∈ tr, i ∉ m.token_indices
  | 0, k, acc, tr, kend, h, hacc => by
    have : acc = tr := by
      have := (Option.some.injEq _ _ ▸ h)
      exact (Prod.mk.injEq _ _ _ _ ▸ this).1
    exact this ▸ hacc
  | n + 1, k, acc, tr, kend, h, hacc => by
    unfold stackLoop at h
    simp only [if_pos rfl, if_true] at h
    rcases hsched : m.schedule_non_token s fuel k with _ | ⟨idx, k1⟩
    · rw [hsched] at h
      exact absurd h (by simp)
    · rw [hsched] at h
      refine stackLoop_not_token m s fuel hhavoc n k1 (acc ++ [idx]) tr kend h ?_
      intro i hi
      rcases List.mem_append.1 hi with hi | hi
      · exact hacc i hi
      · rw [List.mem_singleton.1 hi]
        exact schedule_non_token_not_token m s fuel k idx k1 hhavoc hsched

/-- Claim C6 as amended: in every stacked-mutation round that `mutate` marks
`use_token` (possible only with a nonempty token set), the stacked iteration
count is the halved base count (minimum 1), the final mutation applied is
drawn from the token set and nothing follows it, and — provided the tuple
contains at least one non-token mutation — every stacked mutation before it
is drawn from the non-token (havoc) set (with an all-token tuple the
stacked draws fall back to the token set). -/
theorem token_preserving_round (m : TPSM) (s : RandStream) (fuel k : Nat)
    (trace : List Nat) (kend : Nat)
    (h : m.mutate s fuel k = some (trace, true, kend)) :
    m.token_indices ≠ [] ∧
    ∃ stacked tidx, trace = stacked ++ [tidx] ∧
      tidx ∈ m.token_indices ∧
      stacked.length = max ((m.iterations s k).1 / 2) 1 ∧
      (m.mutations_len - m.token_indices.length ≠ 0 →
        ∀ i ∈ stacked, i ∉ m.token_indices) := by
  unfold TPSM.mutate at h
  rcases hit : m.iterations s k with ⟨base, k1⟩
  rw [hit] at h
  by_cases hemp : m.token_indices.isEmpty
  · simp only [if_pos hemp, Bool.false_eq_true, if_false] at h
    rcases hsl : stackLoop m s false fuel base k1 [] with _ | ⟨trace0, k3⟩ <;>
      simp only [hsl] at h <;> simp at h
  · have hne : m.token_indices ≠ [] := fun hc => hemp (by simp [hc])
    simp only [if_neg hemp, randBelow] at h
    by_cases hv : s k1 % 100 < 30
    · rw [decide_eq_true hv] at h
      simp only [eq_self_iff_true, if_true] at h
      rcases hsl : stackLoop m s true fuel (max (base / 2) 1) (k1 + 1) []
          with _ | ⟨trace0, k3⟩
      · simp only [hsl] at h
        exact absurd h (by simp)
      · simp only [hsl] at h
        rcases hst : m.schedule_token s k3 with _ | ⟨tk, k4⟩
        · simp only [hst] at h
          exact absurd h (by simp)
        · simp only [hst] at h
          simp only [Option.some.injEq, Prod.mk.injEq] at h
          obtain ⟨htr, _, _⟩ := h
          refine ⟨hne, trace0, tk, htr.symm, schedule_token_mem m s k3 tk k4 hst, ?_, ?_⟩
          · have := stackLoop_length m s true fuel (max (base / 2) 1) (k1 + 1)
              [] trace0 k3 hsl
            simpa using this
          · intro hhavoc
            exact stackLoop_not_token m s fuel hhavoc (max (base / 2) 1) (k1 + 1)
              [] trace0 k3 hsl (by simp)
    · rw [decide_eq_false hv] at h
      simp only [Bool.false_eq_true, if_false] at h
      rcases hsl : stackLoop m s false fuel base (k1 + 1) [] with _ | ⟨trace0, k3⟩ <;>
        simp only [hsl] at h <;> simp at h

/-- A mutator tuple with one havoc mutation (index 0) and one token mutation
(index 1). -/
def tpsmMixed : TPSM := ⟨2, 7, [1]⟩

/-- Witness for `token_preserving_round`: with the all-zero stream the round
is marked `use_token`, one stacked havoc mutation (index 0) runs, and the
final applied mutation is the token mutation (index 1). -/
theorem token_preserving_round_witness :
    TPSM.mutate tpsmMixed (fun _ => 0) 5 0 = some ([0, 1], true, 4) ∧
    (tpsmMixed.token_indices ≠ [] ∧
     ∃ stacked tidx, ([0, 1] : List Nat) = stacked ++ [tidx] ∧
       tidx ∈ tpsmMixed.token_indices ∧
       stacked.length = max ((tpsmMixed.iterations (fun _ => 0) 0).1 / 2) 1 ∧
       (tpsmMixed.mutations_len - tpsmMixed.token_indices.length ≠ 0 →
         ∀ i ∈ stacked, i ∉ tpsmMixed.token_indices)) :=
  ⟨by decide, token_preserving_round tpsmMixed (fun _ => 0) 5 0 [0, 1] 4 (by decide)⟩

/-! ## Claim C7: mutation-delta extractor (`src/extractors/mutation_delta.rs`).
The executor is modelled as a coverage oracle `List Nat → Option (List Nat)`
(`None` models a failed `get_coverage`, which aborts the whole extraction via
`?`).  Loops over index ranges are written with an explicit iteration count,
exactly the range length of the source `for` loop. -/

/-- Configuration fields used by the extractor. -/
structure MdConfig where
  min_token_length : Nat
  max_token_length : Nat

/-- A coverage oracle standing for `get_coverage` (reset, run, observe). -/
abbrev CovOracle := List Nat → Option (List Nat)

/-- Phase 1 ("find right bound"): copy `C[i]` into the test vector (pushing
when past its end), re-execute, and stop at the first `i` whose coverage
equals the mutated map, yielding the bounds `(i, i+1)`; bounds `(0, 0)` when
the loop completes without a break. -/
def mdPhase1 (cov : CovOracle) (C mm : List Nat) :
    Nat → Nat → List Nat → Option (List Nat × Nat × Nat)
  | 0, _, tv => some (tv, 0, 0)
  | n + 1, i, tv =>
    let tv1 := if tv.length ≤ i then tv ++ [C.getD i 0] else tv.set i (C.getD i 0)
    match cov tv1 with
    | none => none
    | some cvg =>
      if cvg = mm then some (tv1, i, i + 1)
      else mdPhase1 cov C mm n (i + 1) tv1

/-- Phase 2 ("extend right bound"): replace `test_vec[i]` by a random byte,
execute, restore, and stop with `R = i` at the first irrelevant byte; break
without changing `R` when the index runs past the test vector. -/
def mdPhase2 (cov : CovOracle) (mm : List Nat) (s : RandStream) :
    Nat → Nat → List Nat → Nat → Nat → Option (Nat × List Nat × Nat)
  | 0, _, tv, k, R => some (R, tv, k)
  | n + 1, i, tv, k, R =>
    if tv.length ≤ i then some (R, tv, k)
    else
      let tmp := tv.getD i 0
      let tv1 := tv.set i (s k % 256)
      match cov tv1 with
      | none => none
      | some cvg =>
        let tv2 := tv1.set i tmp
        if cvg = mm then some (i, tv2, k + 1)
        else mdPhase2 cov mm s n (i + 1) tv2 (k + 1) R

/-- Phase 3 ("find left bound"): perturb `test_vec[i]` (random byte when it
already matches the parent, else the parent byte), execute, restore, and stop
with `L = i` at the first byte whose perturbation restores the original
coverage. -/
def mdPhase3 (cov : CovOracle) (om P : List Nat) (s : RandStream) :
    Nat → Nat → List Nat → Nat → Nat → Option (Nat × List Nat × Nat)
  | 0, _, tv, k, L => some (L, tv, k)
  | n + 1, i, tv, k, L =>
    let tmp := tv.getD i 0
    let draw : Nat × Nat :=
      if P.length ≤ i ∨ tv.getD i 0 = P.getD i 0 then (s k % 256, k + 1)
      else (P.getD i 0, k)
    let tv1 := tv.set i draw.1
    match cov tv1 with
    | none => none
    | some cvg =>
      let tv2 := tv1.set i tmp
      if cvg = om then some (i, tv2, draw.2)
      else mdPhase3 cov om P s n (i + 1) tv2 draw.2 L

/-- The three scan phases of `MutationDeltaExtractor::extract`, returning the
final test vector, the bounds `(L, R)` and the random cursor. -/
def mdPhases (cfg : MdConfig) (cov : CovOracle) (P C : List Nat)
    (s : RandStream) : Option (List Nat × Nat × Nat × Nat) :=
  match cov P with
  | none => none
  | some om =>
    match cov C with
    | none => none
    | some mm =>
      match mdPhase1 cov C mm C.length 0 P with
      | none => none
      | some (tv1, L0, R0) =>
        match mdPhase2 cov mm s (min C.length (L0 + cfg.max_token_length) - R0)
            R0 tv1 0 R0 with
        | none => none
        | some (R1, tv2, k1) =>
          match mdPhase3 cov om P s (R1 - (R1 - cfg.max_token_length))
              (R1 - cfg.max_token_length) tv2 k1 L0 with
          | none => none
          | some (L1, tv3, k2) => some (tv3, L1, R1, k2)

/-- `MutationDeltaExtractor::extract`: run the phases and emit the child
slice `C[L..R]` iff its length reaches `min_token_length`. -/
def MutationDeltaExtractor.extract (cfg : MdConfig) (cov : CovOracle)
    (P C : List Nat) (s : RandStream) : Option (List (List Nat)) :=
  match mdPhases cfg cov P C s with
  | none => none
  | some (_, L, R, _) =>
    if cfg.min_token_length ≤ R - L then some [(C.drop L).take (R - L)]
    else none

theorem mdPhase1_bounds (cov : CovOracle) (C mm : List Nat) :
    ∀ (n i : Nat) (tv tvr : List Nat) (L R : Nat),
      mdPhase1 cov C mm n i tv = some (tvr, L, R) →
      (L = 0 ∧ R = 0) ∨ (L + 1 = R ∧ R ≤ i + n)
  | 0, i, tv, tvr, L, R, h => by
    unfold mdPhase1 at h
    simp only [Option.some.injEq, Prod.mk.injEq] at h
    exact Or.inl ⟨h.2.1.symm, h.2.2.symm⟩
  | n + 1, i, tv, tvr, L, R, h => by
    unfold mdPhase1 at h
    rcases hcov : cov (if tv.length ≤ i then tv ++ [C.getD i 0]
        else tv.set i (C.getD i 0)) with _ | cvg
    · simp only [hcov] at h
      exact absurd h (by simp)
    · simp only [hcov] at h
      by_cases hc : cvg = mm
      · rw [if_pos hc] at h
        simp only [Option.some.injEq, Prod.mk.injEq] at h
        exact Or.inr ⟨by omega, by omega⟩
      · rw [if_neg hc] at h
        rcases mdPhase1_bounds cov C mm n (i + 1) _ tvr L R h with h1 | h1
        · exact Or.inl h1
        · exact Or.inr ⟨h1.1, by omega⟩

theorem mdPhase2_bounds (cov : CovOracle) (mm : List Nat) (s : RandStream) :
    ∀ (n i : Nat) (tv : List Nat) (k R R1 : Nat) (tv1 : List Nat) (k1 : Nat),
      mdPhase2 cov mm s n i tv k R = some (R1, tv1, k1) →
      R1 = R ∨ (i ≤ R1 ∧ R1 < i + n)
  | 0, i, tv, k, R, R1, tv1, k1, h => by
    unfold mdPhase2 at h
    simp only [Option.some.injEq, Prod.mk.injEq] at h
    exact Or.inl h.1.symm
  | n + 1, i, tv, k, R, R1, tv1, k1, h => by
    unfold mdPhase2 at h
    by_cases hlen : tv.length ≤ i
    · rw [if_pos hlen] at h
      simp only [Option.some.injEq, Prod.mk.injEq] at h
      exact Or.inl h.1.symm
    · rw [if_neg hlen] at h
      rcases hcov : cov (tv.set i (s k % 256)) with _ | cvg
      · simp only [hcov] at h
        exact absurd h (by simp)
      · simp only [hcov] at h
        by_cases hc : cvg = mm
        · rw [if_pos hc] at h
          simp only [Option.some.injEq, Prod.mk.injEq] at h
          exact Or.inr ⟨by omega, by omega⟩
        · rw [if_neg hc] at h
          rcases mdPhase2_bounds cov mm s n (i + 1) _ (k + 1) R R1 tv1 k1 h with h1 | h1
          · exact Or.inl h1
          · exact Or.inr ⟨by omega, by omega⟩

theorem mdPhase3_bounds (cov : CovOracle) (om P : List Nat) (s : RandStream) :
    ∀ (n i : Nat) (tv : List Nat) (k L L1 : Nat) (tv1 : List Nat) (k1 : Nat),
      mdPhase3 cov om P s n i tv k L = some (L1, tv1, k1) →
      L1 = L ∨ (i ≤ L1 ∧ L1 < i + n)
  | 0, i, tv, k, L, L1, tv1, k1, h => by
    unfold mdPhase3 at h
    simp only [Option.some.injEq, Prod.mk.injEq] at h
    exact Or.inl h.1.symm
  | n + 1, i, tv, k, L, L1, tv1, k1, h => by
    unfold mdPhase3 at h
    rcases hcov : cov (tv.set i (if P.length ≤ i ∨ tv.getD i 0 = P.getD i 0
        then (s k % 256, k + 1) else (P.getD i 0, k)).1) with _ | cvg
    · simp only [hcov] at h
      exact absurd h (by simp)
    · simp only [hcov] at h
      by_cases hc : cvg = om
      · rw [if_pos hc] at h
        simp only [Option.some.injEq, Prod.mk.injEq] at h
        exact Or.inr ⟨by omega, by omega⟩
      · rw [if_neg hc] at h
        rcases mdPhase3_bounds cov om P s n (i + 1) _ _ L L1 tv1 k1 h with h1 | h1
        · exact Or.inl h1
        · exact Or.inr ⟨by omega, by omega⟩

/-- Claim C7: whenever the three scan phases complete with bounds `(L, R)`,
the bounds are well-formed (`L ≤ R ≤ |C|`) and `extract` returns exactly the
single child-slice token `C[L..R]` iff `R - L ≥ min_token_length`, and `none`
otherwise. -/
theorem mutation_delta_emission (cfg : MdConfig) (cov : CovOracle)
    (P C : List Nat) (s : RandStream) (tv : List Nat) (L R k : Nat)
    (h : mdPhases cfg cov P C s = some (tv, L, R, k)) :
    L ≤ R ∧ R ≤ C.length ∧
    MutationDeltaExtractor.extract cfg cov P C s =
      (if cfg.min_token_length ≤ R - L then some [(C.drop L).take (R - L)]
       else none) := by
  have hext : MutationDeltaExtractor.extract cfg cov P C s =
      (if cfg.min_token_length ≤ R - L then some [(C.drop L).take (R - L)]
       else none) := by
    unfold MutationDeltaExtractor.extract
    rw [h]
  refine ⟨?_, ?_, hext⟩ <;>
  · unfold mdPhases at h
    rcases hcovP : cov P with _ | om
    · simp only [hcovP] at h
      exact absurd h (by simp)
    · simp only [hcovP] at h
      rcases hcovC : cov C with _ | mm
      · simp only [hcovC] at h
        exact absurd h (by simp)
      · simp only [hcovC] at h
        rcases hp1 : mdPhase1 cov C mm C.length 0 P with _ | ⟨tv1, L0, R0⟩
        · simp only [hp1] at h
          exact absurd h (by simp)
        · simp only [hp1] at h
          rcases hp2 : mdPhase2 cov mm s
              (min C.length (L0 + cfg.max_token_length) - R0) R0 tv1 0 R0
              with _ | ⟨R1, tv2, k1⟩
          · simp only [hp2] at h
            exact absurd h (by simp)
          · simp only [hp2] at h
            rcases hp3 : mdPhase3 cov om P s (R1 - (R1 - cfg.max_token_length))
                (R1 - cfg.max_token_length) tv2 k1 L0 with _ | ⟨L1, tv3, k2⟩
            · simp only [hp3] at h
              exact absurd h (by simp)
            · simp only [hp3, Option.some.injEq, Prod.mk.injEq] at h
              obtain ⟨-, hL, hR, -⟩ := h
              subst hL
              subst hR
              have hb1 := mdPhase1_bounds cov C mm C.length 0 P tv1 L0 R0 hp1
              have hb2 := mdPhase2_bounds cov mm s _ R0 tv1 0 R0 R1 tv2 k1 hp2
              have hb3 := mdPhase3_bounds cov om P s _ _ tv2 k1 L0 L1 tv3 k2 hp3
              have hmin : min C.length (L0 + cfg.max_token_length) ≤ C.length :=
                Nat.min_le_left _ _
              omega

/-- A deterministic coverage oracle whose signal depends only on whether the
magic substring `[98, 99]` occurs in the input. -/
def covW : CovOracle := fun v => some [if occursIn [98, 99] v then 1 else 0]

/-- Witness for `mutation_delta_emission`: with parent `"aa"`, child `"abca"`
and the magic-substring oracle, the phases isolate bounds `(1, 3)` and the
extractor emits exactly the child slice `"bc"`. -/
theorem mutation_delta_emission_witness :
    mdPhases ⟨2, 16⟩ covW [97, 97] [97, 98, 99, 97] (fun _ => 50) =
      some ([97, 98, 99], 1, 3, 1) ∧
    ((1 : Nat) ≤ 3 ∧ 3 ≤ ([97, 98, 99, 97] : List Nat).length ∧
     MutationDeltaExtractor.extract ⟨2, 16⟩ covW [97, 97] [97, 98, 99, 97]
         (fun _ => 50) =
       (if (⟨2, 16⟩ : MdConfig).min_token_length ≤ 3 - 1 then
          some [(([97, 98, 99, 97] : List Nat).drop 1).take (3 - 1)]
        else none)) :=
  ⟨by decide,
    mutation_delta_emission ⟨2, 16⟩ covW [97, 97] [97, 98, 99, 97] (fun _ => 50)
      [97, 98, 99] 1 3 1 (by decide)⟩

/-! ## Claim C8: SHM seqlock reader (`src/tokens/shared_token_storage.rs`).
One reader invocation is a function of the reader's `last_sequence` and of
what it observes in the shared region: the sequence word at the first load
(`seq1`), the `count` word and data bytes as read, and the sequence word at
the second load (`seq2`). -/

/-- What one execution of `read_tokens` observes in the shared region. -/
structure ShmObs where
  seq1 : Nat
  count : Nat
  data : List Nat
  max_data : Nat
  seq2 : Nat

/-- The record-parsing loop of `read_tokens`: up to `count` records, each a
little-endian `u16` length followed by that many bytes, stopping at the
region end (`count` is only an upper bound). -/
def readRecords (data : List Nat) (max_data : Nat) :
    Nat → Nat → List (List Nat) → List (List Nat)
  | 0, _, acc => acc
  | n + 1, offset, acc =>
    if max_data < offset + 2 then acc
    else
      let len := data.getD offset 0 + 256 * data.getD (offset + 1) 0
      if max_data < offset + 2 + len then acc
      else readRecords data max_data n (offset + 2 + len)
        (acc ++ [(data.drop (offset + 2)).take len])

/-- Rust `SharedTokenStorage::read_tokens`: bail out when the first sequence
load is odd or unchanged since the last successful read; parse; discard when
the second load differs; on success remember the sequence.  Returns the new
`last_sequence` and the optional tokens. -/
def SharedTokenStorage.read_tokens (last_sequence : Nat) (obs : ShmObs) :
    Nat × Option (List (List Nat)) :=
  if obs.seq1 % 2 = 1 ∨ obs.seq1 = last_sequence then (last_sequence, none)
  else
    let tokens := readRecords obs.data obs.max_data obs.count 0 []
    if obs.seq1 ≠ obs.seq2 then (last_sequence, none)
    else (obs.seq1, some tokens)

/-- Claim C8: a successful `read_tokens` observed an even first sequence
value that differs from `last_sequence` and equals the second load; the
reader state advances to that value, so any immediately following read with
no intervening writer activity (same sequence word) returns `none`. -/
theorem read_tokens_seqlock (last : Nat) (obs : ShmObs) (ts : List (List Nat))
    (h : (SharedTokenStorage.read_tokens last obs).2 = some ts) :
    obs.seq1 % 2 = 0 ∧ obs.seq1 ≠ last ∧ obs.seq1 = obs.seq2 ∧
    (SharedTokenStorage.read_tokens last obs).1 = obs.seq1 ∧
    ts = readRecords obs.data obs.max_data obs.count 0 [] ∧
    (∀ obs2 : ShmObs, obs2.seq1 = obs.seq1 →
      (SharedTokenStorage.read_tokens obs.seq1 obs2).2 = none) := by
  unfold SharedTokenStorage.read_tokens at h ⊢
  by_cases h1 : obs.seq1 % 2 = 1 ∨ obs.seq1 = last
  · rw [if_pos h1] at h
    exact absurd h (by simp)
  · rw [if_neg h1] at h
    rw [if_neg h1]
    push_neg at h1
    by_cases h2 : obs.seq1 ≠ obs.seq2
    · rw [if_pos h2] at h
      exact absurd h (by simp)
    · rw [if_neg h2] at h
      rw [if_neg h2]
      push_neg at h2
      simp only [Option.some.injEq] at h
      refine ⟨by omega, h1.2, h2, rfl, h.symm, ?_⟩
      intro obs2 hseq
      rw [if_pos (Or.inr hseq)]

/-- Witness for `read_tokens_seqlock`: a region holding one two-byte token,
sequence word 2 on both loads, reader previously at 0. -/
theorem read_tokens_seqlock_witness :
    (SharedTokenStorage.read_tokens 0 ⟨2, 1, [2, 0, 5, 6, 0, 0], 6, 2⟩).2 =
      some [[5, 6]] ∧
    ((2 : Nat) % 2 = 0 ∧ (2 : Nat) ≠ 0 ∧ (2 : Nat) = 2 ∧
     (SharedTokenStorage.read_tokens 0 ⟨2, 1, [2, 0, 5, 6, 0, 0], 6, 2⟩).1 = 2 ∧
     [[5, 6]] = readRecords [2, 0, 5, 6, 0, 0] 6 1 0 [] ∧
     (∀ obs2 : ShmObs, obs2.seq1 = 2 →
       (SharedTokenStorage.read_tokens 2 obs2).2 = none)) :=
  ⟨by decide, read_tokens_seqlock 0 ⟨2, 1, [2, 0, 5, 6, 0, 0], 6, 2⟩ [[5, 6]] (by decide)⟩

/-! ## Claim C9: discovery-stage gating -/

/-- Stage configuration (`TokenDiscoveryConfig.search_interval`,
`min_corpus_size` from `src/config.rs`). -/
structure StageConfig where
  search_interval : Nat
  min_corpus_size : Nat

/-- Stage-scoped state: `call_count` and `last_corpus_size`. -/
structure StageState where
  call_count : Nat
  last_corpus_size : Nat
deriving DecidableEq, Repr

/-- Modelled from the spec: the gated `TokenDiscoveryStage::perform` that
`lib.rs` instantiates with an extractor and a processor pipeline is not among
the sources (the `token_discovery_stage.rs` present is an older mutator-based
stage without gating); spec §4.8 defines it: increment `call_count`; if the
corpus has not grown, the cadence divisor does not hit, or the corpus is too
small, update `last_corpus_size` and return; otherwise run the extractor,
pipe its output through the processors (any `none` aborts) and bulk-add the
resulting tokens. -/
def TokenDiscoveryStage.perform (cfg : StageConfig) (corpus_size : Nat)
    (extracted : Option (List (List Nat)))
    (pipeline : List (List (List Nat) → Option (List (List Nat))))
    (st : StageState) (dict : SmartTokens) : StageState × SmartTokens :=
  let st1 : StageState := ⟨st.call_count + 1, st.last_corpus_size⟩
  if corpus_size = st1.last_corpus_size ∨
      st1.call_count % cfg.search_interval ≠ 0 ∨
      corpus_size < cfg.min_corpus_size then
    (⟨st1.call_count, corpus_size⟩, dict)
  else
    match extracted with
    | none => (st1, dict)
    | some raw =>
      match pipeline.foldl (fun acc p =>
          match acc with
          | none => none
          | some ts => p ts) (some raw) with
      | none => (st1, dict)
      | some tokens => (st1, dict.add_all tokens)

/-- Claim C9: every invocation increments `call_count`; when the corpus has
not grown since the previous call, or the cadence divisor does not hit, or
the corpus is below the minimum size, the stage returns with
`last_corpus_size` set to the current corpus size and the token dictionary
untouched. -/
theorem discovery_stage_gating (cfg : StageConfig) (corpus_size : Nat)
    (extracted : Option (List (List Nat)))
    (pipeline : List (List (List Nat) → Option (List (List Nat))))
    (st : StageState) (dict : SmartTokens) :
    (TokenDiscoveryStage.perform cfg corpus_size extracted pipeline st dict).1.call_count
      = st.call_count + 1 ∧
    ((corpus_size = st.last_corpus_size ∨
      (st.call_count + 1) % cfg.search_interval ≠ 0 ∨
      corpus_size < cfg.min_corpus_size) →
      TokenDiscoveryStage.perform cfg corpus_size extracted pipeline st dict =
        (⟨st.call_count + 1, corpus_size⟩, dict)) := by
  unfold TokenDiscoveryStage.perform
  by_cases hg : corpus_size = st.last_corpus_size ∨
      (st.call_count + 1) % cfg.search_interval ≠ 0 ∨
      corpus_size < cfg.min_corpus_size
  · rw [if_pos hg]
    exact ⟨rfl, fun _ => rfl⟩
  · rw [if_neg hg]
    refine ⟨?_, fun hc => absurd hc hg⟩
    rcases extracted with _ | raw
    · rfl
    · rcases hfold : pipeline.foldl (fun acc p =>
          match acc with
          | none => none
          | some ts => p ts) (some raw) with _ | tokens
      · simp only [hfold]
      · simp only [hfold]

/-- Witness for `discovery_stage_gating`: a call with an unchanged corpus
size is gated and leaves the dictionary unchanged. -/
theorem discovery_stage_gating_witness :
    ((5 : Nat) = (5 : Nat) ∨ ((0 : Nat) + 1) % 3 ≠ 0 ∨ (5 : Nat) < 2) ∧
    TokenDiscoveryStage.perform ⟨3, 2⟩ 5 none [] ⟨0, 5⟩
        (SmartTokens.with_capacity 2) =
      (⟨1, 5⟩, SmartTokens.with_capacity 2) :=
  ⟨Or.inl rfl,
    (discovery_stage_gating ⟨3, 2⟩ 5 none [] ⟨0, 5⟩
      (SmartTokens.with_capacity 2)).2 (Or.inl rfl)⟩
